import Mathlib

set_option maxHeartbeats 1000000

/- Verification model of the dot-notation object-path utilities of
   kz-io/common-types (src/types/type_aliases.ts): the type-level
   computations `IsAny`, `ExtractPath`, `InternalStringPath`, `Paths` and
   `PathValue`, together with the runtime path-resolution facility
   (`enumeratePaths` / `resolveValue`) that the specification derives from
   them.

   TypeScript types are embedded as the inductive `Ty` below; type-level
   computations over them become ordinary recursive functions, and unions
   of string-literal types become lists of strings (with set semantics
   given by membership).  Primitive kinds (string / number / boolean) are
   modelled as memberless leaves: the JavaScript wrapper-object members
   that `keyof` would expose on them are outside the modelled universe,
   which is exactly the schema-tree view the specification prescribes. -/

/-- A TypeScript property key: a string literal, a numeric literal, a
unique symbol, or one of the three index-signature domains (`number`,
`string`, `symbol`) that appear in `keyof` of arrays and of `any`. -/
inductive KeyP where
| str : String → KeyP
| num : Nat → KeyP
| sym : Nat → KeyP
| numIndex : KeyP
| strIndex : KeyP
| symIndex : KeyP
deriving DecidableEq, Repr

/-- The members of `Array.prototype` (the string keys of `keyof []` and of
`keyof Array<T>`) under the repository's toolchain libs, which include the
ES2023 array methods (`findLast` through `with`). -/
def arrayMemberNames : List String :=
["length", "toString", "toLocaleString", "pop", "push", "concat", "join",
 "reverse", "shift", "slice", "sort", "splice", "unshift", "indexOf",
 "lastIndexOf", "every", "some", "forEach", "map", "filter", "reduce",
 "reduceRight", "find", "findIndex", "fill", "copyWithin", "entries",
 "keys", "values", "includes", "flatMap", "flat", "at", "findLast",
 "findLastIndex", "toReversed", "toSorted", "toSpliced", "with"]

/-- The keys of the empty-tuple type `[]`: the numeric index, the iterator
symbol, and the `Array.prototype` member names.  `keyof Array<T>` has the
same members, so `Exclude<keyof Array<T>, keyof []>` is empty. -/
def keyofEmptyTuple : List KeyP :=
KeyP.numIndex :: KeyP.symIndex :: arrayMemberNames.map KeyP.str

/-- Does a key belong to `keyof []`? -/
def inEmptyTupleKeys : KeyP → Bool
| KeyP.numIndex => true
| KeyP.symIndex => true
| KeyP.str s => s ∈ arrayMemberNames
| _ => false

mutual
/-- A TypeScript type shape, restricted to the universe the path utilities
operate on: terminal primitive kinds, `any`, arrays, and object (record)
types with a declared field list. -/
inductive Ty where
| strT : Ty
| numT : Ty
| boolT : Ty
| anyT : Ty
| arr : Ty → Ty
| obj : Fields → Ty
/-- The declared fields of an object type: each field is a key, an
optionality flag (`true` = the key is declared with `?`), and a value
type. -/
inductive Fields where
| fnil : Fields
| fcons : KeyP → Bool → Ty → Fields → Fields
end

deriving instance DecidableEq for Ty

/-- The field list as a plain list of triples. -/
def Fields.toList : Fields → List (KeyP × Bool × Ty)
| Fields.fnil => []
| Fields.fcons k o t rest => (k, o, t) :: rest.toList

/-- The declared keys of a field list (`keyof T` for object types). -/
def Fields.keysOf : Fields → List KeyP
| Fields.fnil => []
| Fields.fcons k _ _ rest => k :: rest.keysOf

/-- First declared field with the given string key (this models indexed
access `Required<T>[K]`: the optionality flag is returned but the value
type is the declared one, exactly as `Required` strips `?` without
changing the value type). -/
def Fields.get? : Fields → String → Option (Bool × Ty)
| Fields.fnil, _ => none
| Fields.fcons k o t rest, s =>
  if k = KeyP.str s then some (o, t) else rest.get? s

/-- Tests for a string key. -/
def KeyP.isStr : KeyP → Bool
| KeyP.str _ => true
| _ => false

/-- The string carried by a string-literal key (`K & string` on a single
key). -/
def KeyP.str? : KeyP → Option String
| KeyP.str s => some s
| _ => none

/-- The `keyof` operator on the modelled universe.  Object types expose
their declared keys; arrays expose the `Array.prototype` members (the same
set as `keyof []`); `any` exposes the three index domains
(`keyof any = string | number | symbol`); primitive kinds are modelled as
memberless leaves. -/
def Ty.keyof : Ty → List KeyP
| Ty.obj fs => fs.keysOf
| Ty.arr _ => keyofEmptyTuple
| Ty.anyT => [KeyP.strIndex, KeyP.numIndex, KeyP.symIndex]
| _ => []

/-- Does `unknown extends T` hold?  In the modelled universe only `any`
absorbs `unknown`. -/
def unknownExtends : Ty → Bool
| Ty.anyT => true
| _ => false

/-- Source: `type IsAny<T> = unknown extends T ? [keyof T] extends [never]
? false : true : false` (type_aliases.ts:690-692). -/
def IsAny (t : Ty) : Bool :=
unknownExtends t && !t.keyof.isEmpty

/-- Does `T extends AnyObject` (`AnyObject = Record<KeyPrimitive, any>`)
hold?  All object and array types are assignable to an index-signature
target whose value type is `any`; primitives are not.  (`any` itself is
listed as assignable but is always screened off by the `IsAny` test
first.) -/
def extendsAnyObject : Ty → Bool
| Ty.obj _ => true
| Ty.arr _ => true
| Ty.anyT => true
| _ => false

/-- The child-key segments `Exclude<keyof C, keyof []> & string` used by
`ExtractPath` when recursing into a nested value of type `C`. -/
def childSegs (c : Ty) : List String :=
(c.keyof.filter fun k => !inEmptyTupleKeys k).filterMap KeyP.str?

mutual
/-- Source: `ExtractPath<T, K>` (type_aliases.ts:871-881) for a single key
`K`, presented with the looked-up child type `C = Required<T>[K]` inlined
(TypeScript objects cannot declare a key twice, so the lookup always
yields the field's own declared type).  A non-string key yields itself and
is then removed by the surrounding `& string` intersection, hence `[]`.
For a string key: if `IsAny<C>` the key itself is the only path; if `C
extends AnyObject` the result is
`` `${K}.${ExtractPath<C, Exclude<keyof C, keyof []>> & string}` |
`${K}.${Exclude<keyof C, keyof []> & string}` ``
(empty for arrays, whose keys are all excluded by `keyof []`); otherwise
(a primitive leaf) the key itself. -/
def extractPath : KeyP → Ty → List String
| KeyP.str s, Ty.anyT => [s]
| KeyP.str s, Ty.obj fs =>
  ((extractPathExcl fs).map fun p => s ++ "." ++ p) ++
  ((childSegs (Ty.obj fs)).map fun q => s ++ "." ++ q)
| KeyP.str _, Ty.arr _ => []
| KeyP.str s, _ => [s]
| _, _ => []
/-- Source: `ExtractPath<C, Exclude<keyof C, keyof []>>` distributed over
the (excluded) declared keys of an object type. -/
def extractPathExcl : Fields → List String
| Fields.fnil => []
| Fields.fcons k _ ty rest =>
  (if inEmptyTupleKeys k then [] else extractPath k ty) ++ extractPathExcl rest
end

/-- Source: `ExtractPath<T, keyof T>` — the top-level distribution over
all declared keys (no `Exclude` at the top level). -/
def extractPathAll : Fields → List String
| Fields.fnil => []
| Fields.fcons k _ ty rest => extractPath k ty ++ extractPathAll rest

/-- The declared string keys, as strings. -/
def topKeyStrings (fs : Fields) : List String :=
fs.keysOf.filterMap KeyP.str?

/-- Source: `InternalStringPath<T> = ExtractPath<T, keyof T> | keyof T`
(type_aliases.ts:885-890).  The `keyof T` disjunct is rendered through its
string keys: `Paths` only consumes it under the guard that every key of
`T` is a string. -/
def InternalStringPath (fs : Fields) : List String :=
extractPathAll fs ++ topKeyStrings fs

/-- Does `keyof T extends string` hold (every declared key a string)? -/
def allStrKeys (fs : Fields) : Bool :=
fs.keysOf.all KeyP.isStr

/-- Source: `Paths<T>` (type_aliases.ts:922-926): if `keyof T extends
string`, the union `InternalStringPath<T>` (whose members are then all
strings, so the inner `P extends string | keyof T ? P : keyof T` conditional
is the identity); otherwise `never` — the path set is empty.  Non-object
types have no paths (for them the guard fails or the union is empty). -/
def Paths : Ty → List String
| Ty.obj fs => if allStrKeys fs then InternalStringPath fs else []
| _ => []

/-- The specification's `enumeratePaths(shape)` operation is exactly the
`Paths` computation read as a runtime function over the schema tree. -/
def enumeratePaths : Ty → List String := Paths

/-- Splitting a character list on every `.` (the segment decomposition of
a path string; always returns at least one segment, like
`"".split "."`). -/
def splitDotChars : List Char → List (List Char)
| [] => [[]]
| c :: cs =>
  match splitDotChars cs with
  | [] => [[]]
  | s :: ss => if c = '.' then [] :: s :: ss else (c :: s) :: ss

/-- Joining character-list segments with `.` (inverse of
`splitDotChars`). -/
def joinDot : List (List Char) → List Char
| [] => []
| [s] => s
| s :: ss => s ++ '.' :: joinDot ss

/-- Splitting a character list at the first `.`, when there is one: the
decomposition performed by the template-literal inference
`` P extends `${infer K}.${infer R}` `` (the first placeholder matches the
shortest prefix). -/
def splitFirstDot : List Char → Option (List Char × List Char)
| [] => none
| c :: cs =>
  if c = '.' then some ([], cs)
  else
    match splitFirstDot cs with
    | none => none
    | some (h, r) => some (c :: h, r)

/-- The segments of a path string. -/
def segsOf (p : String) : List String :=
(splitDotChars p.toList).map String.mk

/-- Dot-joining a list of segment strings. -/
def joinSegs (c : List String) : String :=
String.mk (joinDot (c.map String.toList))

/-- Is a string free of `.` characters? -/
def dotFree (s : String) : Bool :=
!s.toList.contains '.'

/-- Source: `PathValue<T, P>` (type_aliases.ts:953-962), presented over
the segment decomposition of `P` (template-literal inference splits `P`
at the first dot, so recursing over the segments is the same
computation; `joinSegs` reassembles the remaining suffix `R` for the
`R extends Paths<Required<T>[K]>` membership test).  `never` is `none`.
A dotted path requires the head segment to be a declared key of `T` and
the tail to be a member of `Paths` of the child; a single segment is an
indexed access `Required<T>[P]` (object keys only: the wrapper members of
arrays and primitives are outside the modelled universe and unreachable
from record roots). -/
def PathValueSegs : Ty → List String → Option Ty
| _, [] => none
| t, [s] =>
  match t with
  | Ty.obj fs => (fs.get? s).map fun x => x.2
  | _ => none
| t, s :: rest =>
  match t with
  | Ty.obj fs =>
    match fs.get? s with
    | some (_, c) => if joinSegs rest ∈ Paths c then PathValueSegs c rest else none
    | none => none
  | _ => none

/-- Source: `PathValue<T, P>` on the path string itself. -/
def PathValue (t : Ty) (p : String) : Option Ty :=
PathValueSegs t (segsOf p)

/-- A runtime value (a JSON-like instance): primitives, arrays, and
objects with string-keyed fields. -/
inductive Val where
| vstr : String → Val
| vnum : Int → Val
| vbool : Bool → Val
| varr : List Val → Val
| vobj : List (String × Val) → Val

/-- First-match association lookup on an object's runtime fields. -/
def assocFind : List (String × Val) → String → Option Val
| [], _ => none
| (k, w) :: rest, s => if k = s then some w else assocFind rest s

/-- Key lookup on a runtime value: only objects have keys. -/
def lookupVal : Val → String → Option Val
| Val.vobj fs, s => assocFind fs s
| _, _ => none

/-- Modelled from the spec: the single error kind of `resolveValue`,
carrying the offending path (the path at the level where resolution
failed) and the segment at which it failed (spec §7).  The repository is
a pure type library and has no runtime error class. -/
structure InvalidPathError where
path : String
segment : String
deriving DecidableEq, Repr

/-- Modelled from the spec: the segment-by-segment resolution loop of
`resolveValue` (spec §4.1).  Each step looks the head segment up on the
current value and recurses on the rest; a missing key — including every
case where the current value is not a record and so has no keys, the
spec's "cannot recurse further" — fails with `InvalidPathError` at that
segment.  The repository has no runtime resolver; this is the spec's
algorithm over the segments produced by splitting the path at each `.`
(splitting at the first dot and recursing reaches the same segments in
the same order). -/
def resolveSegs : Val → List String → Except InvalidPathError Val
| v, [] => Except.ok v
| v, s :: rest =>
  match lookupVal v s with
  | some w => resolveSegs w rest
  | none => Except.error ⟨joinSegs (s :: rest), s⟩

/-- Modelled from the spec: `resolveValue(instance, path)` (spec §4.1). -/
def resolveValue (v : Val) (p : String) : Except InvalidPathError Val :=
resolveSegs v (segsOf p)

/-- Successive manual indexing of an instance by a list of segments, in
order (the reference semantics of spec §8). -/
def indexSegs : Val → List String → Option Val
| v, [] => some v
| v, s :: rest =>
  match lookupVal v s with
  | some w => indexSegs w rest
  | none => none

/-- The value of a successful resolution, if any. -/
def okValue : Except InvalidPathError Val → Option Val
| Except.ok w => some w
| Except.error _ => none

/-- The reported segment of a failed resolution, if any. -/
def errSegment : Except InvalidPathError Val → Option String
| Except.error e => some e.segment
| Except.ok _ => none

/-- Is a resolution result an error? -/
def isErr : Except InvalidPathError Val → Bool
| Except.error _ => true
| Except.ok _ => false

/-- Is a resolution result a value? -/
def isOkE : Except InvalidPathError Val → Bool
| Except.ok _ => true
| Except.error _ => false

/-- Does the runtime object cover only declared string keys (structural
exactness: an instance of shape `R` has no keys beyond `R`'s)? -/
def keysCovered (inst : List (String × Val)) (decl : Fields) : Bool :=
inst.all fun kv => (decl.get? kv.1).isSome

mutual
/-- Exact conformance of a runtime value to a shape: primitives match
their kind, `any` accepts everything, array elements all conform to the
element shape, and an object instance has every required declared key
present (optional keys may be absent), each present declared key's value
conforming to its declared type, and no undeclared keys. -/
def conforms : Val → Ty → Bool
| v, Ty.strT => match v with | Val.vstr _ => true | _ => false
| v, Ty.numT => match v with | Val.vnum _ => true | _ => false
| v, Ty.boolT => match v with | Val.vbool _ => true | _ => false
| _, Ty.anyT => true
| v, Ty.arr e =>
  match v with
  | Val.varr xs => xs.all fun x => conforms x e
  | _ => false
| v, Ty.obj decl =>
  match v with
  | Val.vobj inst => fieldsConf inst decl && keysCovered inst decl
  | _ => false
/-- Per-declared-field conformance of an object instance: a required
string-keyed field must be present and conform; an optional one may be
absent; non-string declared keys impose no constraint on the (string-
keyed) runtime object. -/
def fieldsConf : List (String × Val) → Fields → Bool
| _, Fields.fnil => true
| inst, Fields.fcons k opt ty rest =>
  (match k with
   | KeyP.str s =>
     match assocFind inst s with
     | some w => conforms w ty
     | none => opt
   | _ => true) && fieldsConf inst rest
end

mutual
/-- The all-keys-present (`Required`, applied hereditarily) view of a
shape: every optionality flag cleared. -/
def requiredView : Ty → Ty
| Ty.obj fs => Ty.obj (requiredViewF fs)
| Ty.arr e => Ty.arr (requiredView e)
| t => t
/-- `requiredView` on a field list. -/
def requiredViewF : Fields → Fields
| Fields.fnil => Fields.fnil
| Fields.fcons k _ ty rest => Fields.fcons k false (requiredView ty) (requiredViewF rest)
end

/-- Shape-level path validity over a segment list: every segment names a
declared key at its nesting level, and every non-final segment names a
key whose declared value is itself a nested record.  The empty segment
list is not a valid path. -/
def validSegs : Ty → List String → Bool
| _, [] => false
| t, [s] =>
  match t with
  | Ty.obj fs => (fs.get? s).isSome
  | _ => false
| t, s :: rest =>
  match t with
  | Ty.obj fs =>
    match fs.get? s with
    | some (_, ty) => validSegs ty rest
    | none => false
  | _ => false

mutual
/-- A rigid shape: no optional keys, no `any`-kinded values, no
empty-string key names, and at every object level only string keys, each
declared once.  (Array element shapes are unconstrained: resolution can
never descend into an array value.) -/
def Rigid : Ty → Bool
| Ty.obj fs => (topKeyStrings fs).Nodup && RigidF fs
| Ty.anyT => false
| _ => true
/-- `Rigid` on a field list. -/
def RigidF : Fields → Bool
| Fields.fnil => true
| Fields.fcons k opt ty rest =>
  (match k with
   | KeyP.str s => decide (s ≠ "")
   | _ => false) && !opt && Rigid ty && RigidF rest
end

mutual
/-- Every declared string key, at every object level reachable by paths,
is free of literal `.` characters (the spec's validity precondition on
key names, §9). -/
def DotFreeKeys : Ty → Bool
| Ty.obj fs => DotFreeKeysF fs
| _ => true
/-- `DotFreeKeys` on a field list. -/
def DotFreeKeysF : Fields → Bool
| Fields.fnil => true
| Fields.fcons k _ ty rest =>
  (match k with
   | KeyP.str s => dotFree s
   | _ => true) && DotFreeKeys ty && DotFreeKeysF rest
end

mutual
/-- All dot-joined chains of declared string keys of a shape, as segment
lists: each chain starts at a declared string key and either stops there
or continues into the declared keys of that key's value when that value
is itself a nested record (never through arrays, primitives, or `any`).
These are the valid paths of the specification's data model. -/
def chains : Ty → List (List String)
| Ty.obj fs => chainsF fs
| _ => []
/-- `chains` on a field list. -/
def chainsF : Fields → List (List String)
| Fields.fnil => []
| Fields.fcons k _ ty rest =>
  (match k with
   | KeyP.str s => [s] :: (chains ty).map fun c => s :: c
   | _ => []) ++ chainsF rest
end

/-- The fields of the concrete scenario shape of the specification (§8). -/
def exUserF : Fields :=
Fields.fcons (KeyP.str "name") false Ty.strT
  (Fields.fcons (KeyP.str "address") false
    (Ty.obj (Fields.fcons (KeyP.str "city") false Ty.strT
      (Fields.fcons (KeyP.str "zip") false Ty.numT Fields.fnil)))
    Fields.fnil)

/-- The concrete scenario shape of the specification (§8):
`{ name: string, address: { city: string, zip: number } }`. -/
def exUser : Ty := Ty.obj exUserF

/-- The concrete scenario instance of the specification (§8). -/
def exUserInst : Val :=
Val.vobj [("name", Val.vstr "Pontiac Ifesinachi"),
  ("address", Val.vobj [("city", Val.vstr "Pontiac"), ("zip", Val.vnum 48342)])]

/-- The nested record of `exUserInst` at key `address`. -/
def exUserAddress : Val :=
Val.vobj [("city", Val.vstr "Pontiac"), ("zip", Val.vnum 48342)]

/-- The fields of a shape with an optional intermediate key. -/
def exOptF : Fields :=
Fields.fcons (KeyP.str "f") true
  (Ty.obj (Fields.fcons (KeyP.str "g") false Ty.strT Fields.fnil))
  Fields.fnil

/-- A shape with an optional intermediate key: `{ f?: { g: string } }`. -/
def exOpt : Ty := Ty.obj exOptF

/-- A shape with a declared key containing a literal dot:
`{ "a.b": string }` (the §9 ambiguity). -/
def exDot : Ty :=
Ty.obj (Fields.fcons (KeyP.str "a.b") false Ty.strT Fields.fnil)

/-- An instance of `exDot` with its (required) key present. -/
def exDotInst : Val :=
Val.vobj [("a.b", Val.vstr "x")]

/-- The fields of a shape mixing a string key and a numeric literal key. -/
def exMixF : Fields :=
Fields.fcons (KeyP.str "a") false Ty.strT
  (Fields.fcons (KeyP.num 1) false Ty.numT Fields.fnil)

/-- A shape whose top-level keys mix a string key and a numeric literal
key: `{ a: string, 1: number }`. -/
def exMix : Ty := Ty.obj exMixF

/-- The fields of a shape with a numeric key next to an array-valued
string key. -/
def exMixArrF : Fields :=
Fields.fcons (KeyP.num 1) false Ty.numT
  (Fields.fcons (KeyP.str "a") false (Ty.arr Ty.numT) Fields.fnil)

/-- A shape with a numeric top-level key next to an array-valued string
key: `{ 1: number, a: number[] }`. -/
def exMixArr : Ty := Ty.obj exMixArrF

/-- The fields of a shape with a numeric key next to an `any`-valued
string key. -/
def exMixAnyF : Fields :=
Fields.fcons (KeyP.num 1) false Ty.numT
  (Fields.fcons (KeyP.str "a") false Ty.anyT Fields.fnil)

/-- A shape with a numeric top-level key next to an `any`-valued string
key: `{ 1: number, a: any }`. -/
def exMixAny : Ty := Ty.obj exMixAnyF

/-- A shape with a nested key named like an `Array.prototype` member:
`{ a: { length: string } }`. -/
def exNestedLen : Ty :=
Ty.obj (Fields.fcons (KeyP.str "a") false
  (Ty.obj (Fields.fcons (KeyP.str "length") false Ty.strT Fields.fnil))
  Fields.fnil)

/-- A shape with a nested record mixing string and numeric keys:
`{ a: { b: string, 1: number } }`. -/
def exNestedMix : Ty :=
Ty.obj (Fields.fcons (KeyP.str "a") false
  (Ty.obj (Fields.fcons (KeyP.str "b") false Ty.strT
    (Fields.fcons (KeyP.num 1) false Ty.numT Fields.fnil)))
  Fields.fnil)

/-- An instance of `exNestedMix` (the numeric-keyed member is outside the
string-keyed runtime model and is absent). -/
def exNestedMixInst : Val :=
Val.vobj [("a", Val.vobj [("b", Val.vstr "x")])]

/-- The fields of a shape with an `any`-kinded key. -/
def exAnyF : Fields :=
Fields.fcons (KeyP.str "a") false Ty.anyT Fields.fnil

/-- A shape with an `any`-kinded key: `{ a: any }`. -/
def exAny : Ty := Ty.obj exAnyF

/-- An instance of `exAny` whose runtime value at `a` is itself
record-shaped. -/
def exAnyInst : Val :=
Val.vobj [("a", Val.vobj [("b", Val.vnum 1)])]

/-- A shape declaring the empty-string key: `{ "": string }`. -/
def exEmptyKey : Ty :=
Ty.obj (Fields.fcons (KeyP.str "") false Ty.strT Fields.fnil)

/-- An instance of `exEmptyKey`. -/
def exEmptyKeyInst : Val :=
Val.vobj [("", Val.vstr "x")]

/-- The fields of a shape with an array-valued key next to an ordinary
nested record. -/
def exArrF : Fields :=
Fields.fcons (KeyP.str "xs") false (Ty.arr Ty.numT)
  (Fields.fcons (KeyP.str "b") false
    (Ty.obj (Fields.fcons (KeyP.str "c") false Ty.strT Fields.fnil))
    Fields.fnil)

/-- A shape with an array-valued key next to an ordinary nested record:
`{ xs: number[], b: { c: string } }`. -/
def exArr : Ty := Ty.obj exArrF

/-- The fields of a shape with an `any`-kinded key next to a dotted key
name: `{ a: any, "a.b": string }`. -/
def exAnyDotF : Fields :=
Fields.fcons (KeyP.str "a") false Ty.anyT
  (Fields.fcons (KeyP.str "a.b") false Ty.strT Fields.fnil)

/-- A shape with an `any`-kinded key next to a dotted key name. -/
def exAnyDot : Ty := Ty.obj exAnyDotF

/-- The fields of a shape that declares the key `a` twice, first as `any`
and then as a nested record (inexpressible as one TypeScript object
literal, but representable in the embedding). -/
def exAnyDupF : Fields :=
Fields.fcons (KeyP.str "a") false Ty.anyT
  (Fields.fcons (KeyP.str "a") false
    (Ty.obj (Fields.fcons (KeyP.str "b") false Ty.strT Fields.fnil))
    Fields.fnil)

/-- A shape declaring `a` twice (`any`, then a record). -/
def exAnyDup : Ty := Ty.obj exAnyDupF

theorem splitDotChars_ne_nil : ∀ cs : List Char, splitDotChars cs ≠ []
| [] => by simp [splitDotChars]
| c :: cs => by
  have ih := splitDotChars_ne_nil cs
  unfold splitDotChars
  match h : splitDotChars cs with
  | [] => exact absurd h ih
  | s :: ss => by_cases hc : c = '.' <;> simp [hc]

theorem joinDot_splitDotChars : ∀ cs : List Char, joinDot (splitDotChars cs) = cs
| [] => by simp [splitDotChars, joinDot]
| c :: cs => by
  have ih := joinDot_splitDotChars cs
  unfold splitDotChars
  match h : splitDotChars cs with
  | [] => exact absurd h (splitDotChars_ne_nil cs)
  | s :: ss =>
    rw [h] at ih
    by_cases hc : c = '.'
    · subst hc
      simp only [if_pos rfl]
      cases ss with
      | nil => simpa [joinDot] using ih
      | cons a as => simpa [joinDot] using ih
    · simp only [if_neg hc]
      cases ss with
      | nil => simpa [joinDot] using ih
      | cons a as => simpa [joinDot] using ih

theorem splitDotChars_no_dot : ∀ cs : List Char, '.' ∉ cs → splitDotChars cs = [cs]
| [], _ => by simp [splitDotChars]
| c :: cs, h => by
  have hc : ¬ c = '.' := fun e => h (e ▸ List.mem_cons_self c cs)
  have ih := splitDotChars_no_dot cs (fun m => h (List.mem_cons_of_mem c m))
  unfold splitDotChars
  rw [ih]
  simp [hc]

theorem splitDotChars_append :
    ∀ h : List Char, '.' ∉ h → ∀ r, splitDotChars (h ++ '.' :: r) = h :: splitDotChars r
| [], _, r => by
  have h1 := splitDotChars_ne_nil r
  match hr : splitDotChars r with
  | [] => exact absurd hr h1
  | s :: ss => simp [splitDotChars, hr]
| c :: h, hd, r => by
  have hc : ¬ c = '.' := fun e => hd (e ▸ List.mem_cons_self c h)
  have ih := splitDotChars_append h (fun m => hd (List.mem_cons_of_mem c m)) r
  have hne := splitDotChars_ne_nil (h ++ '.' :: r)
  show splitDotChars (c :: (h ++ '.' :: r)) = (c :: h) :: splitDotChars r
  match hsp : splitDotChars (h ++ '.' :: r) with
  | [] => exact absurd hsp hne
  | s :: ss =>
    rw [hsp] at ih
    simp only [List.cons.injEq] at ih
    obtain ⟨rfl, rfl⟩ := ih
    simp [splitDotChars, hsp, hc]

theorem splitDotChars_joinDot :
    ∀ ss : List (List Char), ss ≠ [] → (∀ s ∈ ss, '.' ∉ s) →
      splitDotChars (joinDot ss) = ss
| [], h, _ => absurd rfl h
| [s], _, hs => by
  simpa [joinDot] using splitDotChars_no_dot s (hs s (List.mem_cons_self s []))
| s :: a :: as, _, hs => by
  have ih := splitDotChars_joinDot (a :: as) (by simp)
    (fun x hx => hs x (List.mem_cons_of_mem s hx))
  show splitDotChars (s ++ '.' :: joinDot (a :: as)) = s :: a :: as
  rw [splitDotChars_append s (hs s (List.mem_cons_self s _)), ih]

theorem dotSplit_unique :
    ∀ a : List Char, '.' ∉ a → ∀ b : List Char, '.' ∉ b →
      ∀ x y : List Char, a ++ '.' :: x = b ++ '.' :: y → a = b ∧ x = y
| [], _, [], _, x, y, h => by simpa using h
| [], _, c :: b, hb, x, y, h => by
  rw [List.nil_append, List.cons_append] at h
  injection h with h1 h2
  cases h1
  exact absurd (List.mem_cons_self _ _) hb
| c :: a, ha, [], _, x, y, h => by
  rw [List.cons_append, List.nil_append] at h
  injection h with h1 h2
  cases h1
  exact absurd (List.mem_cons_self _ _) ha
| c :: a, ha, d :: b, hb, x, y, h => by
  rw [List.cons_append, List.cons_append] at h
  injection h with h1 h2
  cases h1
  have := dotSplit_unique a (fun m => ha (List.mem_cons_of_mem c m))
    b (fun m => hb (List.mem_cons_of_mem c m)) x y h2
  exact ⟨by rw [this.1], this.2⟩

theorem string_toList_append (s t : String) : (s ++ t).toList = s.toList ++ t.toList := by
cases s
cases t
rfl

theorem string_mk_toList (s : String) : String.mk s.toList = s := by
cases s
rfl

theorem string_toList_mk (cs : List Char) : (String.mk cs).toList = cs := rfl

theorem string_toList_inj {s t : String} (h : s.toList = t.toList) : s = t := by
cases s
cases t
exact congrArg String.mk h

theorem joinSegs_segsOf (p : String) : joinSegs (segsOf p) = p := by
unfold joinSegs segsOf
rw [List.map_map]
have : (String.toList ∘ String.mk) = id := by
  funext cs
  rfl
rw [this, List.map_id, joinDot_splitDotChars, string_mk_toList]

theorem segsOf_ne_nil (p : String) : segsOf p ≠ [] := by
unfold segsOf
intro h
exact splitDotChars_ne_nil p.toList (List.map_eq_nil_iff.mp h)

theorem segsOf_no_dot (p : String) (h : dotFree p = true) : segsOf p = [p] := by
unfold segsOf
rw [splitDotChars_no_dot p.toList (by simpa [dotFree] using h)]
simp [string_mk_toList]

theorem dot_toList : ("." : String).toList = ['.'] := rfl

theorem segsOf_append_dot (h r : String) (hd : dotFree h = true) :
    segsOf (h ++ "." ++ r) = h :: segsOf r := by
unfold segsOf
have : (h ++ "." ++ r).toList = h.toList ++ '.' :: r.toList := by
  rw [string_toList_append, string_toList_append, dot_toList]
  simp
rw [this, splitDotChars_append h.toList (by simpa [dotFree] using hd) r.toList]
simp [string_mk_toList]

theorem joinSegs_single (s : String) : joinSegs [s] = s := by
unfold joinSegs
simp [joinDot, string_mk_toList]

theorem joinSegs_cons (s : String) (c : List String) (h : c ≠ []) :
    joinSegs (s :: c) = s ++ "." ++ joinSegs c := by
unfold joinSegs
cases c with
| nil => exact absurd rfl h
| cons a as =>
  apply string_toList_inj
  rw [string_toList_mk, string_toList_append, string_toList_append, dot_toList,
    string_toList_mk]
  show joinDot (s.toList :: (a :: as).map String.toList) =
    s.toList ++ ['.'] ++ joinDot ((a :: as).map String.toList)
  simp [joinDot]

theorem segsOf_joinSegs (c : List String) (hne : c ≠ [])
    (hdf : ∀ s ∈ c, dotFree s = true) : segsOf (joinSegs c) = c := by
unfold segsOf joinSegs
rw [string_toList_mk, splitDotChars_joinDot (c.map String.toList)
  (by simpa using hne)
  (by
    intro x hx
    obtain ⟨s, hs, rfl⟩ := List.mem_map.mp hx
    simpa [dotFree] using hdf s hs)]
rw [List.map_map]
have : (String.mk ∘ String.toList) = id := by
  funext s
  exact string_mk_toList s
rw [this, List.map_id]

theorem dotFree_of_append_dot (s r p : String) (h : p = s ++ "." ++ r) :
    dotFree p = false := by
subst h
simp [dotFree, string_toList_append, dot_toList]

theorem mem_keysOf : ∀ (fs : Fields) (k : KeyP),
    k ∈ fs.keysOf ↔ ∃ o ty, (k, o, ty) ∈ fs.toList
| Fields.fnil, k => by simp [Fields.keysOf, Fields.toList]
| Fields.fcons k0 o0 ty0 rest, k => by
  have ih := mem_keysOf rest k
  simp only [Fields.keysOf, Fields.toList, List.mem_cons, Prod.mk.injEq]
  constructor
  · rintro (rfl | h)
    · exact ⟨o0, ty0, Or.inl ⟨rfl, rfl, rfl⟩⟩
    · obtain ⟨o, ty, hm⟩ := ih.mp h
      exact ⟨o, ty, Or.inr hm⟩
  · rintro ⟨o, ty, (⟨rfl, _, _⟩ | hm)⟩
    · exact Or.inl rfl
    · exact Or.inr (ih.mpr ⟨o, ty, hm⟩)

theorem mem_topKeyStrings (fs : Fields) (s : String) :
    s ∈ topKeyStrings fs ↔ ∃ o ty, (KeyP.str s, o, ty) ∈ fs.toList := by
unfold topKeyStrings
rw [← mem_keysOf]
simp only [List.mem_filterMap]
constructor
· rintro ⟨k, hk, hs⟩
  cases k <;> simp [KeyP.str?] at hs
  subst hs
  exact hk
· intro h
  exact ⟨KeyP.str s, h, rfl⟩

theorem mem_childSegs_obj (fs : Fields) (q : String) :
    q ∈ childSegs (Ty.obj fs) ↔
      (∃ o ty, (KeyP.str q, o, ty) ∈ fs.toList) ∧ q ∉ arrayMemberNames := by
unfold childSegs
show q ∈ (fs.keysOf.filter fun k => !inEmptyTupleKeys k).filterMap KeyP.str? ↔ _
simp only [List.mem_filterMap, List.mem_filter]
constructor
· rintro ⟨k, ⟨hk, hf⟩, hs⟩
  cases k <;> simp [KeyP.str?] at hs
  subst hs
  refine ⟨(mem_keysOf fs _).mp hk, ?_⟩
  simpa [inEmptyTupleKeys] using hf
· rintro ⟨hd, hn⟩
  exact ⟨KeyP.str q, ⟨(mem_keysOf fs _).mpr hd, by simpa [inEmptyTupleKeys] using hn⟩, rfl⟩

theorem extractPathAll_mono : ∀ (fs : Fields) (k : KeyP) (o : Bool) (ty : Ty),
    (k, o, ty) ∈ fs.toList → ∀ p ∈ extractPath k ty, p ∈ extractPathAll fs
| Fields.fnil, _, _, _, h => by simp [Fields.toList] at h
| Fields.fcons k0 o0 ty0 rest, k, o, ty, h => by
  intro p hp
  simp only [Fields.toList, List.mem_cons, Prod.mk.injEq] at h
  unfold extractPathAll
  rcases h with ⟨rfl, rfl, rfl⟩ | h
  · exact List.mem_append_left _ hp
  · exact List.mem_append_right _ (extractPathAll_mono rest k o ty h p hp)

theorem extractPathAll_cases : ∀ (fs : Fields) (p : String),
    p ∈ extractPathAll fs → ∃ k o ty, (k, o, ty) ∈ fs.toList ∧ p ∈ extractPath k ty
| Fields.fnil, p, h => by simp [extractPathAll] at h
| Fields.fcons k0 o0 ty0 rest, p, h => by
  unfold extractPathAll at h
  rcases List.mem_append.mp h with h | h
  · exact ⟨k0, o0, ty0, by simp [Fields.toList], h⟩
  · obtain ⟨k, o, ty, hm, hp⟩ := extractPathAll_cases rest p h
    exact ⟨k, o, ty, by simp [Fields.toList, hm], hp⟩

theorem extractPathExcl_mono : ∀ (fs : Fields) (k : KeyP) (o : Bool) (ty : Ty),
    (k, o, ty) ∈ fs.toList → inEmptyTupleKeys k = false →
      ∀ p ∈ extractPath k ty, p ∈ extractPathExcl fs
| Fields.fnil, _, _, _, h => by simp [Fields.toList] at h
| Fields.fcons k0 o0 ty0 rest, k, o, ty, h => by
  intro he p hp
  simp only [Fields.toList, List.mem_cons, Prod.mk.injEq] at h
  unfold extractPathExcl
  rcases h with ⟨rfl, rfl, rfl⟩ | h
  · exact List.mem_append_left _ (by simp [he, hp])
  · exact List.mem_append_right _ (extractPathExcl_mono rest k o ty h he p hp)

theorem extractPathExcl_cases : ∀ (fs : Fields) (p : String),
    p ∈ extractPathExcl fs →
      ∃ k o ty, (k, o, ty) ∈ fs.toList ∧ inEmptyTupleKeys k = false ∧
        p ∈ extractPath k ty
| Fields.fnil, p, h => by simp [extractPathExcl] at h
| Fields.fcons k0 o0 ty0 rest, p, h => by
  unfold extractPathExcl at h
  rcases List.mem_append.mp h with h | h
  · by_cases he : inEmptyTupleKeys k0
    · simp [he] at h
    · exact ⟨k0, o0, ty0, by simp [Fields.toList], by simpa using he, by simpa [he] using h⟩
  · obtain ⟨k, o, ty, hm, he, hp⟩ := extractPathExcl_cases rest p h
    exact ⟨k, o, ty, by simp [Fields.toList, hm], he, hp⟩

theorem chainsF_ne_nil : ∀ (fs : Fields), ∀ c ∈ chainsF fs, c ≠ []
| Fields.fnil, c, h => by simp [chainsF] at h
| Fields.fcons k o ty rest, c, h => by
  unfold chainsF at h
  rcases List.mem_append.mp h with h | h
  · cases k <;> simp at h
    rcases h with rfl | ⟨c', _, rfl⟩ <;> simp
  · exact chainsF_ne_nil rest c h

theorem chains_ne_nil (t : Ty) : ∀ c ∈ chains t, c ≠ [] := by
cases t <;> simp [chains]
exact fun c h => chainsF_ne_nil _ c h

theorem chainsF_mono1 : ∀ (fs : Fields) (s : String) (o : Bool) (ty : Ty),
    (KeyP.str s, o, ty) ∈ fs.toList → [s] ∈ chainsF fs
| Fields.fnil, s, o, ty, h => by simp [Fields.toList] at h
| Fields.fcons k0 o0 ty0 rest, s, o, ty, h => by
  simp only [Fields.toList, List.mem_cons, Prod.mk.injEq] at h
  unfold chainsF
  rcases h with ⟨rfl, rfl, rfl⟩ | h
  · exact List.mem_append_left _ (by simp)
  · exact List.mem_append_right _ (chainsF_mono1 rest s o ty h)

theorem chainsF_mono2 : ∀ (fs : Fields) (s : String) (o : Bool) (ty : Ty),
    (KeyP.str s, o, ty) ∈ fs.toList → ∀ c ∈ chains ty, (s :: c) ∈ chainsF fs
| Fields.fnil, s, o, ty, h => by simp [Fields.toList] at h
| Fields.fcons k0 o0 ty0 rest, s, o, ty, h => by
  intro c hc
  simp only [Fields.toList, List.mem_cons, Prod.mk.injEq] at h
  unfold chainsF
  rcases h with ⟨rfl, rfl, rfl⟩ | h
  · apply List.mem_append_left
    show s :: c ∈ [s] :: (chains ty).map fun c => s :: c
    exact List.mem_cons_of_mem _ (List.mem_map.mpr ⟨c, hc, rfl⟩)
  · exact List.mem_append_right _ (chainsF_mono2 rest s o ty h c hc)

theorem chainsF_cases : ∀ (fs : Fields), ∀ c ∈ chainsF fs,
    ∃ s o ty, (KeyP.str s, o, ty) ∈ fs.toList ∧
      (c = [s] ∨ ∃ c', c = s :: c' ∧ c' ∈ chains ty)
| Fields.fnil, c, h => by simp [chainsF] at h
| Fields.fcons k0 o0 ty0 rest, c, h => by
  unfold chainsF at h
  rcases List.mem_append.mp h with h | h
  · cases k0 with
    | str s =>
      simp only [List.mem_cons, List.mem_map] at h
      rcases h with rfl | ⟨c', hc', rfl⟩
      · exact ⟨s, o0, ty0, by simp [Fields.toList], Or.inl rfl⟩
      · exact ⟨s, o0, ty0, by simp [Fields.toList], Or.inr ⟨c', rfl, hc'⟩⟩
    | num n => simp at h
    | sym n => simp at h
    | numIndex => simp at h
    | strIndex => simp at h
    | symIndex => simp at h
  · obtain ⟨s, o, ty, hm, hc⟩ := chainsF_cases rest c h
    exact ⟨s, o, ty, by simp [Fields.toList, hm], hc⟩

mutual
theorem extractPath_sound : ∀ (ty : Ty) (s p : String),
    p ∈ extractPath (KeyP.str s) ty →
    p = joinSegs [s] ∨ ∃ c ∈ chains ty, p = joinSegs (s :: c)
| Ty.strT, s, p, h => by
  left
  rw [joinSegs_single]
  simpa [extractPath] using h
| Ty.numT, s, p, h => by
  left
  rw [joinSegs_single]
  simpa [extractPath] using h
| Ty.boolT, s, p, h => by
  left
  rw [joinSegs_single]
  simpa [extractPath] using h
| Ty.anyT, s, p, h => by
  left
  rw [joinSegs_single]
  simpa [extractPath] using h
| Ty.arr e, s, p, h => by simp [extractPath] at h
| Ty.obj fs, s, p, h => by
  right
  unfold extractPath at h
  rcases List.mem_append.mp h with h | h
  · obtain ⟨q, hq, rfl⟩ := List.mem_map.mp h
    obtain ⟨c, hc, rfl⟩ := extractPathExcl_sound fs q hq
    refine ⟨c, by simpa [chains] using hc, ?_⟩
    rw [joinSegs_cons s c (chainsF_ne_nil fs c hc)]
  · obtain ⟨q, hq, rfl⟩ := List.mem_map.mp h
    obtain ⟨⟨o, ty, hd⟩, _⟩ := (mem_childSegs_obj fs q).mp hq
    refine ⟨[q], by simpa [chains] using chainsF_mono1 fs q o ty hd, ?_⟩
    rw [joinSegs_cons s [q] (by simp), joinSegs_single]
theorem extractPathExcl_sound : ∀ (fs : Fields) (q : String),
    q ∈ extractPathExcl fs → ∃ c ∈ chainsF fs, q = joinSegs c
| Fields.fnil, q, h => by simp [extractPathExcl] at h
| Fields.fcons k o ty rest, q, h => by
  unfold extractPathExcl at h
  rcases List.mem_append.mp h with h | h
  · by_cases he : inEmptyTupleKeys k
    · simp [he] at h
    · rw [if_neg he] at h
      cases k with
      | str s =>
        rcases extractPath_sound ty s q h with rfl | ⟨c, hc, rfl⟩
        · exact ⟨[s], chainsF_mono1 (Fields.fcons (KeyP.str s) o ty rest) s o ty
            (by simp [Fields.toList]), rfl⟩
        · exact ⟨s :: c, chainsF_mono2 (Fields.fcons (KeyP.str s) o ty rest) s o ty
            (by simp [Fields.toList]) c hc, rfl⟩
      | num n => simp [extractPath] at h
      | sym n => simp [extractPath] at h
      | numIndex => simp [extractPath] at h
      | strIndex => simp [extractPath] at h
      | symIndex => simp [extractPath] at h
  · obtain ⟨c, hc, rfl⟩ := extractPathExcl_sound rest q h
    refine ⟨c, ?_, rfl⟩
    unfold chainsF
    exact List.mem_append_right _ hc
end

theorem paths_sound (t : Ty) (p : String) (h : p ∈ Paths t) :
    ∃ c ∈ chains t, p = joinSegs c := by
cases t with
| obj fs =>
  rw [show Paths (Ty.obj fs) = if allStrKeys fs then InternalStringPath fs else []
    from rfl] at h
  by_cases ha : allStrKeys fs
  · rw [if_pos ha] at h
    unfold InternalStringPath at h
    rcases List.mem_append.mp h with h | h
    · obtain ⟨k, o, ty, hm, hp⟩ := extractPathAll_cases fs p h
      cases k with
      | str s =>
        rcases extractPath_sound ty s p hp with rfl | ⟨c, hc, rfl⟩
        · exact ⟨[s], by simpa [chains] using chainsF_mono1 fs s o ty hm, rfl⟩
        · exact ⟨s :: c, by simpa [chains] using chainsF_mono2 fs s o ty hm c hc, rfl⟩
      | num n => simp [extractPath] at hp
      | sym n => simp [extractPath] at hp
      | numIndex => simp [extractPath] at hp
      | strIndex => simp [extractPath] at hp
      | symIndex => simp [extractPath] at hp
    · obtain ⟨o, ty, hm⟩ := (mem_topKeyStrings fs p).mp h
      exact ⟨[p], by simpa [chains] using chainsF_mono1 fs p o ty hm,
        (joinSegs_single p).symm⟩
  · rw [if_neg ha] at h
    simp at h
| strT => simp [Paths] at h
| numT => simp [Paths] at h
| boolT => simp [Paths] at h
| anyT => simp [Paths] at h
| arr e => simp [Paths] at h

theorem childSegs_obj_mono (k : KeyP) (o : Bool) (ty : Ty) (rest : Fields) (q : String)
    (h : q ∈ childSegs (Ty.obj rest)) : q ∈ childSegs (Ty.obj (Fields.fcons k o ty rest)) := by
obtain ⟨⟨o2, ty2, hd⟩, hn⟩ := (mem_childSegs_obj rest q).mp h
exact (mem_childSegs_obj _ q).mpr ⟨⟨o2, ty2, by simp [Fields.toList, hd]⟩, hn⟩

theorem chains_complete_inner : ∀ (fs : Fields) (c : List String),
    c ∈ chainsF fs → (∀ s ∈ c, s ∉ arrayMemberNames) →
      joinSegs c ∈ extractPathExcl fs ++ childSegs (Ty.obj fs)
| Fields.fnil, c, hc, _ => by simp [chainsF] at hc
| Fields.fcons k o ty rest, c, hc, hna => by
  unfold chainsF at hc
  rcases List.mem_append.mp hc with hc | hc
  · cases k with
    | str s =>
      simp only [List.mem_cons, List.mem_map] at hc
      have hs : s ∉ arrayMemberNames := by
        rcases hc with rfl | ⟨c', _, rfl⟩ <;>
          exact hna s (List.mem_cons_self s _)
      have hse : inEmptyTupleKeys (KeyP.str s) = false := by
        simpa [inEmptyTupleKeys] using hs
      rcases hc with rfl | ⟨c', hc', rfl⟩
      · apply List.mem_append_right
        rw [joinSegs_single]
        exact (mem_childSegs_obj _ s).mpr
          ⟨⟨o, ty, by simp [Fields.toList]⟩, hs⟩
      · cases ty with
        | obj fs2 =>
          have hcin := chains_complete_inner fs2 c' (by simpa [chains] using hc')
            (fun x hx => hna x (List.mem_cons_of_mem s hx))
          apply List.mem_append_left
          unfold extractPathExcl
          apply List.mem_append_left
          rw [if_neg (by simp [hse])]
          rw [joinSegs_cons s c' (chains_ne_nil _ c' hc')]
          unfold extractPath
          rw [← List.map_append]
          exact List.mem_map.mpr ⟨joinSegs c', hcin, rfl⟩
        | strT => simp [chains] at hc'
        | numT => simp [chains] at hc'
        | boolT => simp [chains] at hc'
        | anyT => simp [chains] at hc'
        | arr e => simp [chains] at hc'
    | num n => simp at hc
    | sym n => simp at hc
    | numIndex => simp at hc
    | strIndex => simp at hc
    | symIndex => simp at hc
  · have ih := chains_complete_inner rest c hc hna
    rcases List.mem_append.mp ih with ih | ih
    · apply List.mem_append_left
      unfold extractPathExcl
      exact List.mem_append_right _ ih
    · exact List.mem_append_right _ (childSegs_obj_mono k o ty rest _ ih)

theorem chains_complete (fs : Fields) (hstr : allStrKeys fs = true)
    (c : List String) (hc : c ∈ chainsF fs)
    (hna : ∀ s ∈ c.drop 1, s ∉ arrayMemberNames) :
    joinSegs c ∈ Paths (Ty.obj fs) := by
rw [show Paths (Ty.obj fs) = if allStrKeys fs then InternalStringPath fs else []
  from rfl, if_pos hstr]
unfold InternalStringPath
obtain ⟨s, o, ty, hm, hcase⟩ := chainsF_cases fs c hc
rcases hcase with rfl | ⟨c', rfl, hc'⟩
· apply List.mem_append_right
  rw [joinSegs_single]
  exact (mem_topKeyStrings fs s).mpr ⟨o, ty, hm⟩
· cases ty with
  | obj fs2 =>
    have hcin := chains_complete_inner fs2 c' (by simpa [chains] using hc')
      (fun x hx => hna x (by simpa using hx))
    apply List.mem_append_left
    apply extractPathAll_mono fs (KeyP.str s) o (Ty.obj fs2) hm
    rw [joinSegs_cons s c' (chains_ne_nil _ c' hc')]
    unfold extractPath
    rw [← List.map_append]
    exact List.mem_map.mpr ⟨joinSegs c', hcin, rfl⟩
  | strT => simp [chains] at hc'
  | numT => simp [chains] at hc'
  | boolT => simp [chains] at hc'
  | anyT => simp [chains] at hc'
  | arr e => simp [chains] at hc'

theorem resolveSegs_okValue : ∀ (segs : List String) (v : Val),
    okValue (resolveSegs v segs) = indexSegs v segs
| [], v => rfl
| s :: rest, v => by
  unfold resolveSegs indexSegs
  match lookupVal v s with
  | some w => exact resolveSegs_okValue rest w
  | none => rfl

theorem conforms_obj {v : Val} {fs : Fields} (h : conforms v (Ty.obj fs) = true) :
    ∃ inst, v = Val.vobj inst ∧ fieldsConf inst fs = true ∧ keysCovered inst fs = true := by
cases v with
| vobj inst =>
  have h2 : fieldsConf inst fs = true ∧ keysCovered inst fs = true := by
    simpa [conforms, Bool.and_eq_true] using h
  exact ⟨inst, rfl, h2.1, h2.2⟩
| vstr s => simp [conforms] at h
| vnum n => simp [conforms] at h
| vbool b => simp [conforms] at h
| varr xs => simp [conforms] at h

theorem fieldsConf_get : ∀ (fs : Fields) (inst : List (String × Val)) (s : String)
    (o : Bool) (ty : Ty), fieldsConf inst fs = true → (KeyP.str s, o, ty) ∈ fs.toList →
      match assocFind inst s with
      | some w => conforms w ty = true
      | none => o = true
| Fields.fnil, inst, s, o, ty, _, hm => by simp [Fields.toList] at hm
| Fields.fcons k0 o0 ty0 rest, inst, s, o, ty, hcf, hm => by
  simp only [Fields.toList, List.mem_cons, Prod.mk.injEq] at hm
  unfold fieldsConf at hcf
  rw [Bool.and_eq_true] at hcf
  rcases hm with ⟨hk, rfl, rfl⟩ | hm
  · subst hk
    have h1 : (match assocFind inst s with
        | some w => conforms w ty
        | none => o) = true := hcf.1
    match ha : assocFind inst s with
    | some w =>
      rw [ha] at h1
      exact h1
    | none =>
      rw [ha] at h1
      exact h1
  · exact fieldsConf_get rest inst s o ty hcf.2 hm

theorem requiredViewF_toList : ∀ (fs : Fields) (k : KeyP) (o : Bool) (ty : Ty),
    (k, o, ty) ∈ fs.toList →
      (k, false, requiredView ty) ∈ (requiredViewF fs).toList
| Fields.fnil, k, o, ty, h => by simp [Fields.toList] at h
| Fields.fcons k0 o0 ty0 rest, k, o, ty, h => by
  simp only [Fields.toList, List.mem_cons, Prod.mk.injEq] at h
  rcases h with ⟨rfl, rfl, rfl⟩ | h
  · simp [requiredViewF, Fields.toList]
  · simp only [requiredViewF, Fields.toList, List.mem_cons]
    exact Or.inr (requiredViewF_toList rest k o ty h)

theorem conformsReq_find {fs : Fields} {inst : List (String × Val)} {s : String}
    {o : Bool} {ty : Ty} (hcf : fieldsConf inst (requiredViewF fs) = true)
    (hm : (KeyP.str s, o, ty) ∈ fs.toList) :
    ∃ w, assocFind inst s = some w ∧ conforms w (requiredView ty) = true := by
have := fieldsConf_get (requiredViewF fs) inst s false (requiredView ty) hcf
  (requiredViewF_toList fs (KeyP.str s) o ty hm)
match ha : assocFind inst s with
| some w =>
  rw [ha] at this
  exact ⟨w, rfl, this⟩
| none =>
  rw [ha] at this
  exact absurd this (by simp)

theorem resolve_chain : ∀ (c : List String) (fs : Fields) (v : Val),
    conforms v (requiredView (Ty.obj fs)) = true → c ∈ chainsF fs →
      isOkE (resolveSegs v c) = true
| [], fs, v, _, hc => absurd rfl (chainsF_ne_nil fs [] hc)
| s0 :: c0, fs, v, hcf, hc => by
  obtain ⟨s, o, ty, hm, hcase⟩ := chainsF_cases fs (s0 :: c0) hc
  have hcf2 : conforms v (Ty.obj (requiredViewF fs)) = true := hcf
  obtain ⟨inst, rfl, hfc, _⟩ := conforms_obj hcf2
  rcases hcase with heq | ⟨c', heq, hc'⟩
  · injection heq with h1 h2
    subst h1
    subst h2
    obtain ⟨w, hw, _⟩ := conformsReq_find hfc hm
    show isOkE (match lookupVal (Val.vobj inst) s0 with
      | some x => resolveSegs x []
      | none => Except.error ⟨joinSegs [s0], s0⟩) = true
    rw [show lookupVal (Val.vobj inst) s0 = assocFind inst s0 from rfl, hw]
    rfl
  · injection heq with h1 h2
    subst h1
    subst h2
    obtain ⟨w, hw, hcw⟩ := conformsReq_find hfc hm
    cases ty with
    | obj fs2 =>
      show isOkE (match lookupVal (Val.vobj inst) s0 with
        | some x => resolveSegs x c0
        | none => Except.error ⟨joinSegs (s0 :: c0), s0⟩) = true
      rw [show lookupVal (Val.vobj inst) s0 = assocFind inst s0 from rfl, hw]
      exact resolve_chain c0 fs2 w hcw (by simpa [chains] using hc')
    | strT => simp [chains] at hc'
    | numT => simp [chains] at hc'
    | boolT => simp [chains] at hc'
    | anyT => simp [chains] at hc'
    | arr e => simp [chains] at hc'

theorem keysOf_requiredViewF : ∀ fs : Fields, (requiredViewF fs).keysOf = fs.keysOf
| Fields.fnil => rfl
| Fields.fcons k o ty rest => by
  simp [requiredViewF, Fields.keysOf, keysOf_requiredViewF rest]

theorem childSegs_requiredView (fs : Fields) :
    childSegs (Ty.obj (requiredViewF fs)) = childSegs (Ty.obj fs) := by
unfold childSegs
show ((requiredViewF fs).keysOf.filter _).filterMap _ = (fs.keysOf.filter _).filterMap _
rw [keysOf_requiredViewF]

mutual
theorem extractPath_requiredView : ∀ (k : KeyP) (ty : Ty),
    extractPath k (requiredView ty) = extractPath k ty
| KeyP.str s, Ty.strT => rfl
| KeyP.str s, Ty.numT => rfl
| KeyP.str s, Ty.boolT => rfl
| KeyP.str s, Ty.anyT => rfl
| KeyP.str s, Ty.arr e => rfl
| KeyP.str s, Ty.obj fs => by
  show extractPath (KeyP.str s) (Ty.obj (requiredViewF fs)) = _
  unfold extractPath
  rw [extractPathExcl_requiredView fs, childSegs_requiredView fs]
| KeyP.num n, ty => by cases ty <;> rfl
| KeyP.sym n, ty => by cases ty <;> rfl
| KeyP.numIndex, ty => by cases ty <;> rfl
| KeyP.strIndex, ty => by cases ty <;> rfl
| KeyP.symIndex, ty => by cases ty <;> rfl
theorem extractPathExcl_requiredView : ∀ fs : Fields,
    extractPathExcl (requiredViewF fs) = extractPathExcl fs
| Fields.fnil => rfl
| Fields.fcons k o ty rest => by
  show (if inEmptyTupleKeys k then [] else extractPath k (requiredView ty)) ++
      extractPathExcl (requiredViewF rest) = _
  rw [extractPath_requiredView k ty, extractPathExcl_requiredView rest]
  rfl
end

theorem extractPathAll_requiredView : ∀ fs : Fields,
    extractPathAll (requiredViewF fs) = extractPathAll fs
| Fields.fnil => rfl
| Fields.fcons k o ty rest => by
  show extractPath k (requiredView ty) ++ extractPathAll (requiredViewF rest) = _
  rw [extractPath_requiredView k ty, extractPathAll_requiredView rest]
  rfl

theorem paths_requiredView : ∀ t : Ty, Paths (requiredView t) = Paths t := by
intro t
cases t with
| obj fs =>
  show Paths (Ty.obj (requiredViewF fs)) = Paths (Ty.obj fs)
  rw [show Paths (Ty.obj (requiredViewF fs)) =
      if allStrKeys (requiredViewF fs) then InternalStringPath (requiredViewF fs) else []
    from rfl]
  rw [show Paths (Ty.obj fs) =
      if allStrKeys fs then InternalStringPath fs else [] from rfl]
  have h1 : allStrKeys (requiredViewF fs) = allStrKeys fs := by
    unfold allStrKeys
    rw [keysOf_requiredViewF]
  have h2 : InternalStringPath (requiredViewF fs) = InternalStringPath fs := by
    unfold InternalStringPath topKeyStrings
    rw [extractPathAll_requiredView, keysOf_requiredViewF]
  rw [h1, h2]
| strT => rfl
| numT => rfl
| boolT => rfl
| anyT => rfl
| arr e => rfl

theorem dotFreeKeysF_get : ∀ (fs : Fields) (k : KeyP) (o : Bool) (ty : Ty),
    DotFreeKeysF fs = true → (k, o, ty) ∈ fs.toList →
      (∀ s, k = KeyP.str s → dotFree s = true) ∧ DotFreeKeys ty = true
| Fields.fnil, k, o, ty, _, hm => by simp [Fields.toList] at hm
| Fields.fcons k0 o0 ty0 rest, k, o, ty, hdf, hm => by
  unfold DotFreeKeysF at hdf
  rw [Bool.and_eq_true, Bool.and_eq_true] at hdf
  simp only [Fields.toList, List.mem_cons, Prod.mk.injEq] at hm
  rcases hm with ⟨rfl, rfl, rfl⟩ | hm
  · refine ⟨?_, hdf.1.2⟩
    intro s hs
    subst hs
    exact hdf.1.1
  · exact dotFreeKeysF_get rest k o ty hdf.2 hm

theorem chains_dotFree : ∀ (c : List String) (fs : Fields),
    DotFreeKeysF fs = true → c ∈ chainsF fs → ∀ s ∈ c, dotFree s = true
| [], fs, _, hc => by simp
| s0 :: c0, fs, hdf, hc => by
  obtain ⟨s, o, ty, hm, hcase⟩ := chainsF_cases fs (s0 :: c0) hc
  have hget := dotFreeKeysF_get fs (KeyP.str s) o ty hdf hm
  rcases hcase with heq | ⟨c', heq, hc'⟩
  · injection heq with h1 h2
    subst h1
    subst h2
    intro x hx
    simp only [List.mem_singleton] at hx
    subst hx
    exact hget.1 x rfl
  · injection heq with h1 h2
    subst h1
    subst h2
    intro x hx
    rcases List.mem_cons.mp hx with rfl | hx
    · exact hget.1 x rfl
    · cases ty with
      | obj fs2 =>
        exact chains_dotFree c0 fs2 (by simpa [DotFreeKeys] using hget.2)
          (by simpa [chains] using hc') x hx
      | strT => simp [chains] at hc'
      | numT => simp [chains] at hc'
      | boolT => simp [chains] at hc'
      | anyT => simp [chains] at hc'
      | arr e => simp [chains] at hc'

theorem get?_mem : ∀ (fs : Fields) (s : String) (o : Bool) (ty : Ty),
    fs.get? s = some (o, ty) → (KeyP.str s, o, ty) ∈ fs.toList
| Fields.fnil, s, o, ty, h => by simp [Fields.get?] at h
| Fields.fcons k0 o0 ty0 rest, s, o, ty, h => by
  unfold Fields.get? at h
  by_cases hk : k0 = KeyP.str s
  · rw [if_pos hk] at h
    injection h with h1
    injection h1 with h2 h3
    subst hk
    subst h2
    subst h3
    simp [Fields.toList]
  · rw [if_neg hk] at h
    simp only [Fields.toList, List.mem_cons]
    exact Or.inr (get?_mem rest s o ty h)

theorem assocFind_mem : ∀ (inst : List (String × Val)) (s : String) (w : Val),
    assocFind inst s = some w → (s, w) ∈ inst
| [], s, w, h => by simp [assocFind] at h
| (k0, w0) :: rest, s, w, h => by
  unfold assocFind at h
  by_cases hk : k0 = s
  · rw [if_pos hk] at h
    injection h with h1
    subst hk
    subst h1
    simp
  · rw [if_neg hk] at h
    exact List.mem_cons_of_mem _ (assocFind_mem rest s w h)

theorem keysCovered_find {inst : List (String × Val)} {fs : Fields} {s : String} {w : Val}
    (hkc : keysCovered inst fs = true) (hf : assocFind inst s = some w) :
    (fs.get? s).isSome = true := by
have hm := assocFind_mem inst s w hf
unfold keysCovered at hkc
rw [List.all_eq_true] at hkc
exact hkc (s, w) hm

theorem rigidF_get : ∀ (fs : Fields) (k : KeyP) (o : Bool) (ty : Ty),
    RigidF fs = true → (k, o, ty) ∈ fs.toList →
      (∀ s, k = KeyP.str s → s ≠ "") ∧ o = false ∧ Rigid ty = true
| Fields.fnil, k, o, ty, _, hm => by simp [Fields.toList] at hm
| Fields.fcons k0 o0 ty0 rest, k, o, ty, hr, hm => by
  unfold RigidF at hr
  rw [Bool.and_eq_true, Bool.and_eq_true, Bool.and_eq_true] at hr
  simp only [Fields.toList, List.mem_cons, Prod.mk.injEq] at hm
  rcases hm with ⟨rfl, rfl, rfl⟩ | hm
  · refine ⟨?_, ?_, hr.1.2⟩
    · intro s hs
      subst hs
      simpa using hr.1.1.1
    · simpa using hr.1.1.2
  · exact rigidF_get rest k o ty hr.2 hm

theorem conf_find_of_get {inst : List (String × Val)} {fs : Fields} {s : String}
    {ty : Ty} (hcf : fieldsConf inst fs = true) (hg : fs.get? s = some (false, ty)) :
    ∃ w, assocFind inst s = some w ∧ conforms w ty = true := by
have := fieldsConf_get fs inst s false ty hcf (get?_mem fs s false ty hg)
match ha : assocFind inst s with
| some w =>
  rw [ha] at this
  exact ⟨w, rfl, this⟩
| none =>
  rw [ha] at this
  exact absurd this (by simp)

theorem conf_get_of_find {inst : List (String × Val)} {fs : Fields} {s : String}
    {w : Val} (hcf : fieldsConf inst fs = true) (hkc : keysCovered inst fs = true)
    (hf : assocFind inst s = some w) :
    ∃ o ty, fs.get? s = some (o, ty) ∧ conforms w ty = true := by
have hsome := keysCovered_find hkc hf
match hg : fs.get? s with
| some (o, ty) =>
  refine ⟨o, ty, rfl, ?_⟩
  have := fieldsConf_get fs inst s o ty hcf (get?_mem fs s o ty hg)
  rw [hf] at this
  exact this
| none =>
  rw [hg] at hsome
  simp at hsome

theorem lookup_of_conforms_nonobj : ∀ (ty : Ty) (w : Val),
    (∀ fs, ty ≠ Ty.obj fs) → ty ≠ Ty.anyT → conforms w ty = true →
      ∀ x, lookupVal w x = none := by
intro ty w hno hna hc x
cases ty with
| strT => cases w <;> simp [conforms] at hc <;> rfl
| numT => cases w <;> simp [conforms] at hc <;> rfl
| boolT => cases w <;> simp [conforms] at hc <;> rfl
| anyT => exact absurd rfl hna
| arr e => cases w <;> simp [conforms] at hc <;> rfl
| obj fs => exact absurd rfl (hno fs)

theorem validSegs_nonobj : ∀ (t : Ty) (segs : List String),
    (∀ fs, t ≠ Ty.obj fs) → validSegs t segs = false := by
intro t segs hno
match segs with
| [] => rfl
| [s] => cases t <;> first | rfl | exact absurd rfl (hno _)
| s :: a :: rest => cases t <;> first | rfl | exact absurd rfl (hno _)

theorem resolveSegs_err_of_nolookup {w : Val} (hl : ∀ x, lookupVal w x = none) :
    ∀ segs : List String, segs ≠ [] → isErr (resolveSegs w segs) = true := by
intro segs hne
match segs with
| [] => exact absurd rfl hne
| s :: rest =>
  show isErr (match lookupVal w s with
    | some x => resolveSegs x rest
    | none => Except.error ⟨joinSegs (s :: rest), s⟩) = true
  rw [hl s]
  rfl

theorem rigid_get_empty : ∀ fs : Fields, RigidF fs = true → fs.get? "" = none
| Fields.fnil, _ => rfl
| Fields.fcons k0 o0 ty0 rest, hr => by
  unfold RigidF at hr
  rw [Bool.and_eq_true, Bool.and_eq_true, Bool.and_eq_true] at hr
  unfold Fields.get?
  have hk : ¬ k0 = KeyP.str "" := by
    intro he
    subst he
    simpa using hr.1.1.1
  rw [if_neg hk]
  exact rigid_get_empty rest hr.2

theorem iff_of_eqs {a b : Bool} (h1 : a = true) (h2 : b = false) :
    (a = true ↔ b = false) := by
rw [h1, h2]
exact ⟨fun _ => rfl, fun _ => rfl⟩

theorem rigid_obj {fs : Fields} (h : Rigid (Ty.obj fs) = true) : RigidF fs = true := by
have h2 : (decide (topKeyStrings fs).Nodup && RigidF fs) = true := h
rw [Bool.and_eq_true] at h2
exact h2.2

theorem validSegs_empty_seg : ∀ (segs : List String) (t : Ty),
    Rigid t = true → "" ∈ segs → validSegs t segs = false
| [], t, _, hm => by simp at hm
| s :: rest, t, hr, hm => by
  cases t with
  | anyT => simp [Rigid] at hr
  | strT => exact validSegs_nonobj _ _ (by intro fs h; cases h)
  | numT => exact validSegs_nonobj _ _ (by intro fs h; cases h)
  | boolT => exact validSegs_nonobj _ _ (by intro fs h; cases h)
  | arr e => exact validSegs_nonobj _ _ (by intro fs h; cases h)
  | obj fs =>
    have hrf := rigid_obj hr
    rcases List.mem_cons.mp hm with rfl | hm
    · cases rest with
      | nil =>
        show (Fields.get? fs "").isSome = false
        rw [rigid_get_empty fs hrf]
        rfl
      | cons a rest2 =>
        show (match fs.get? "" with
          | some (_, ty) => validSegs ty (a :: rest2)
          | none => false) = false
        rw [rigid_get_empty fs hrf]
    · cases rest with
      | nil => simp at hm
      | cons a rest2 =>
        show (match fs.get? s with
          | some (_, ty) => validSegs ty (a :: rest2)
          | none => false) = false
        match hg : fs.get? s with
        | none => rfl
        | some (o, ty) =>
          have hrt := (rigidF_get fs (KeyP.str s) o ty hrf (get?_mem fs s o ty hg)).2.2
          exact validSegs_empty_seg (a :: rest2) ty hrt hm

theorem c4core : ∀ (segs : List String) (t : Ty) (v : Val), segs ≠ [] →
    Rigid t = true → conforms v t = true →
    (isErr (resolveSegs v segs) = true ↔ validSegs t segs = false)
| [], t, v, hne, _, _ => absurd rfl hne
| [s], t, v, _, hr, hcv => by
  cases t with
  | anyT => simp [Rigid] at hr
  | strT =>
    have hl := lookup_of_conforms_nonobj Ty.strT v (by intro fs h; cases h)
      (by intro h; cases h) hcv
    exact iff_of_eqs (resolveSegs_err_of_nolookup hl [s] (by simp))
      (validSegs_nonobj _ [s] (by intro fs h; cases h))
  | numT =>
    have hl := lookup_of_conforms_nonobj Ty.numT v (by intro fs h; cases h)
      (by intro h; cases h) hcv
    exact iff_of_eqs (resolveSegs_err_of_nolookup hl [s] (by simp))
      (validSegs_nonobj _ [s] (by intro fs h; cases h))
  | boolT =>
    have hl := lookup_of_conforms_nonobj Ty.boolT v (by intro fs h; cases h)
      (by intro h; cases h) hcv
    exact iff_of_eqs (resolveSegs_err_of_nolookup hl [s] (by simp))
      (validSegs_nonobj _ [s] (by intro fs h; cases h))
  | arr e =>
    have hl := lookup_of_conforms_nonobj (Ty.arr e) v (by intro fs h; cases h)
      (by intro h; cases h) hcv
    exact iff_of_eqs (resolveSegs_err_of_nolookup hl [s] (by simp))
      (validSegs_nonobj _ [s] (by intro fs h; cases h))
  | obj fs =>
    obtain ⟨inst, rfl, hfc, hkc⟩ := conforms_obj hcv
    have hrf := rigid_obj hr
    show isErr (match lookupVal (Val.vobj inst) s with
      | some x => resolveSegs x []
      | none => Except.error ⟨joinSegs [s], s⟩) = true ↔ (fs.get? s).isSome = false
    rw [show lookupVal (Val.vobj inst) s = assocFind inst s from rfl]
    match hg : fs.get? s with
    | some (o, ty) =>
      have ho := (rigidF_get fs (KeyP.str s) o ty hrf (get?_mem fs s o ty hg)).2.1
      subst ho
      obtain ⟨w, hw, _⟩ := conf_find_of_get hfc hg
      rw [hw]
      simp [resolveSegs, isErr]
    | none =>
      match ha : assocFind inst s with
      | some w =>
        obtain ⟨o, ty, hg2, _⟩ := conf_get_of_find hfc hkc ha
        rw [hg] at hg2
        cases hg2
      | none => simp [isErr]
| s :: a :: rest2, t, v, _, hr, hcv => by
  cases t with
  | anyT => simp [Rigid] at hr
  | strT =>
    have hl := lookup_of_conforms_nonobj Ty.strT v (by intro fs h; cases h)
      (by intro h; cases h) hcv
    exact iff_of_eqs (resolveSegs_err_of_nolookup hl _ (by simp))
      (validSegs_nonobj _ _ (by intro fs h; cases h))
  | numT =>
    have hl := lookup_of_conforms_nonobj Ty.numT v (by intro fs h; cases h)
      (by intro h; cases h) hcv
    exact iff_of_eqs (resolveSegs_err_of_nolookup hl _ (by simp))
      (validSegs_nonobj _ _ (by intro fs h; cases h))
  | boolT =>
    have hl := lookup_of_conforms_nonobj Ty.boolT v (by intro fs h; cases h)
      (by intro h; cases h) hcv
    exact iff_of_eqs (resolveSegs_err_of_nolookup hl _ (by simp))
      (validSegs_nonobj _ _ (by intro fs h; cases h))
  | arr e =>
    have hl := lookup_of_conforms_nonobj (Ty.arr e) v (by intro fs h; cases h)
      (by intro h; cases h) hcv
    exact iff_of_eqs (resolveSegs_err_of_nolookup hl _ (by simp))
      (validSegs_nonobj _ _ (by intro fs h; cases h))
  | obj fs =>
    obtain ⟨inst, rfl, hfc, hkc⟩ := conforms_obj hcv
    have hrf := rigid_obj hr
    show isErr (match lookupVal (Val.vobj inst) s with
      | some x => resolveSegs x (a :: rest2)
      | none => Except.error ⟨joinSegs (s :: a :: rest2), s⟩) = true ↔
      (match fs.get? s with
        | some (_, ty) => validSegs ty (a :: rest2)
        | none => false) = false
    rw [show lookupVal (Val.vobj inst) s = assocFind inst s from rfl]
    match hg : fs.get? s with
    | some (o, ty) =>
      have hrg := rigidF_get fs (KeyP.str s) o ty hrf (get?_mem fs s o ty hg)
      have ho := hrg.2.1
      have hrt := hrg.2.2
      subst ho
      obtain ⟨w, hw, hcw⟩ := conf_find_of_get hfc hg
      rw [hw]
      show isErr (resolveSegs w (a :: rest2)) = true ↔ validSegs ty (a :: rest2) = false
      cases ty with
      | obj fs2 => exact c4core (a :: rest2) (Ty.obj fs2) w (by simp) hrt hcw
      | anyT => simp [Rigid] at hrt
      | strT =>
        have hl := lookup_of_conforms_nonobj Ty.strT w (by intro fs h; cases h)
          (by intro h; cases h) hcw
        exact iff_of_eqs (resolveSegs_err_of_nolookup hl _ (by simp))
          (validSegs_nonobj _ _ (by intro fs h; cases h))
      | numT =>
        have hl := lookup_of_conforms_nonobj Ty.numT w (by intro fs h; cases h)
          (by intro h; cases h) hcw
        exact iff_of_eqs (resolveSegs_err_of_nolookup hl _ (by simp))
          (validSegs_nonobj _ _ (by intro fs h; cases h))
      | boolT =>
        have hl := lookup_of_conforms_nonobj Ty.boolT w (by intro fs h; cases h)
          (by intro h; cases h) hcw
        exact iff_of_eqs (resolveSegs_err_of_nolookup hl _ (by simp))
          (validSegs_nonobj _ _ (by intro fs h; cases h))
      | arr e =>
        have hl := lookup_of_conforms_nonobj (Ty.arr e) w (by intro fs h; cases h)
          (by intro h; cases h) hcw
        exact iff_of_eqs (resolveSegs_err_of_nolookup hl _ (by simp))
          (validSegs_nonobj _ _ (by intro fs h; cases h))
    | none =>
      match ha : assocFind inst s with
      | some w =>
        obtain ⟨o, ty, hg2, _⟩ := conf_get_of_find hfc hkc ha
        rw [hg] at hg2
        cases hg2
      | none => simp [isErr]

theorem field_topKey {fs : Fields} {s : String} {o : Bool} {ty : Ty}
    (h : (KeyP.str s, o, ty) ∈ fs.toList) : s ∈ topKeyStrings fs :=
(mem_topKeyStrings fs s).mpr ⟨o, ty, h⟩

theorem nodup_get : ∀ (fs : Fields) (s : String) (o1 o2 : Bool) (t1 t2 : Ty),
    (topKeyStrings fs).Nodup → (KeyP.str s, o1, t1) ∈ fs.toList →
      fs.get? s = some (o2, t2) → o1 = o2 ∧ t1 = t2
| Fields.fnil, s, o1, o2, t1, t2, _, hm, _ => by simp [Fields.toList] at hm
| Fields.fcons k0 o0 ty0 rest, s, o1, o2, t1, t2, hnd, hm, hg => by
  simp only [Fields.toList, List.mem_cons, Prod.mk.injEq] at hm
  cases k0 with
  | str s0 =>
    have hnd2 : s0 ∉ topKeyStrings rest ∧ (topKeyStrings rest).Nodup := by
      have : topKeyStrings (Fields.fcons (KeyP.str s0) o0 ty0 rest) =
          s0 :: topKeyStrings rest := rfl
      rw [this] at hnd
      exact ⟨(List.nodup_cons.mp hnd).1, (List.nodup_cons.mp hnd).2⟩
    unfold Fields.get? at hg
    rcases hm with ⟨hk, rfl, rfl⟩ | hm
    · injection hk with hk2
      subst hk2
      rw [if_pos rfl] at hg
      injection hg with hg2
      injection hg2 with hg3 hg4
      exact ⟨hg3, hg4⟩
    · by_cases hs : s0 = s
      · subst hs
        exact absurd (field_topKey hm) hnd2.1
      · rw [if_neg (by simpa using hs)] at hg
        exact nodup_get rest s o1 o2 t1 t2 hnd2.2 hm hg
  | num n =>
    unfold Fields.get? at hg
    rw [if_neg (by simp)] at hg
    rcases hm with ⟨hk, _, _⟩ | hm
    · cases hk
    · exact nodup_get rest s o1 o2 t1 t2 (by simpa [topKeyStrings, Fields.keysOf, KeyP.str?] using hnd) hm hg
  | sym n =>
    unfold Fields.get? at hg
    rw [if_neg (by simp)] at hg
    rcases hm with ⟨hk, _, _⟩ | hm
    · cases hk
    · exact nodup_get rest s o1 o2 t1 t2 (by simpa [topKeyStrings, Fields.keysOf, KeyP.str?] using hnd) hm hg
  | numIndex =>
    unfold Fields.get? at hg
    rw [if_neg (by simp)] at hg
    rcases hm with ⟨hk, _, _⟩ | hm
    · cases hk
    · exact nodup_get rest s o1 o2 t1 t2 (by simpa [topKeyStrings, Fields.keysOf, KeyP.str?] using hnd) hm hg
  | strIndex =>
    unfold Fields.get? at hg
    rw [if_neg (by simp)] at hg
    rcases hm with ⟨hk, _, _⟩ | hm
    · cases hk
    · exact nodup_get rest s o1 o2 t1 t2 (by simpa [topKeyStrings, Fields.keysOf, KeyP.str?] using hnd) hm hg
  | symIndex =>
    unfold Fields.get? at hg
    rw [if_neg (by simp)] at hg
    rcases hm with ⟨hk, _, _⟩ | hm
    · cases hk
    · exact nodup_get rest s o1 o2 t1 t2 (by simpa [topKeyStrings, Fields.keysOf, KeyP.str?] using hnd) hm hg

theorem append_dot_inj {s s2 r q : String} (hs : dotFree s = true)
    (hs2 : dotFree s2 = true) (h : s ++ "." ++ r = s2 ++ "." ++ q) :
    s = s2 ∧ r = q := by
have hl : s.toList ++ '.' :: r.toList = s2.toList ++ '.' :: q.toList := by
  have := congrArg String.toList h
  rw [string_toList_append, string_toList_append, string_toList_append,
    string_toList_append, dot_toList] at this
  simpa using this
have := dotSplit_unique s.toList (by simpa [dotFree] using hs)
  s2.toList (by simpa [dotFree] using hs2) r.toList q.toList hl
exact ⟨string_toList_inj this.1, string_toList_inj this.2⟩

theorem paths_no_descent_below_any (fs : Fields) (s : String) (o : Bool)
    (hnd : (topKeyStrings fs).Nodup)
    (hdf : ∀ x ∈ topKeyStrings fs, dotFree x = true)
    (hg : fs.get? s = some (o, Ty.anyT)) :
    ∀ (r p : String), p ∈ Paths (Ty.obj fs) → p ≠ s ++ "." ++ r := by
intro r p hp heq
subst heq
rw [show Paths (Ty.obj fs) = if allStrKeys fs then InternalStringPath fs else []
  from rfl] at hp
by_cases ha : allStrKeys fs
· rw [if_pos ha] at hp
  unfold InternalStringPath at hp
  rcases List.mem_append.mp hp with hp | hp
  · obtain ⟨k, o2, ty2, hm, hpe⟩ := extractPathAll_cases fs _ hp
    cases k with
    | str s2 =>
      have hs2df : dotFree s2 = true := hdf s2 (field_topKey hm)
      have hsdf : dotFree s = true :=
        hdf s (field_topKey (get?_mem fs s o Ty.anyT hg))
      cases ty2 with
      | obj fs2 =>
        unfold extractPath at hpe
        rcases List.mem_append.mp hpe with hpe | hpe
        · obtain ⟨q, _, hq⟩ := List.mem_map.mp hpe
          obtain ⟨rfl, _⟩ := append_dot_inj hsdf hs2df hq.symm
          have := (nodup_get fs s o2 o (Ty.obj fs2) Ty.anyT hnd hm hg).2
          cases this
        · obtain ⟨q, _, hq⟩ := List.mem_map.mp hpe
          obtain ⟨rfl, _⟩ := append_dot_inj hsdf hs2df hq.symm
          have := (nodup_get fs s o2 o (Ty.obj fs2) Ty.anyT hnd hm hg).2
          cases this
      | strT =>
        have : s ++ "." ++ r = s2 := by simpa [extractPath] using hpe
        rw [← this] at hs2df
        rw [dotFree_of_append_dot s r _ rfl] at hs2df
        cases hs2df
      | numT =>
        have : s ++ "." ++ r = s2 := by simpa [extractPath] using hpe
        rw [← this] at hs2df
        rw [dotFree_of_append_dot s r _ rfl] at hs2df
        cases hs2df
      | boolT =>
        have : s ++ "." ++ r = s2 := by simpa [extractPath] using hpe
        rw [← this] at hs2df
        rw [dotFree_of_append_dot s r _ rfl] at hs2df
        cases hs2df
      | anyT =>
        have : s ++ "." ++ r = s2 := by simpa [extractPath] using hpe
        rw [← this] at hs2df
        rw [dotFree_of_append_dot s r _ rfl] at hs2df
        cases hs2df
      | arr e => simp [extractPath] at hpe
    | num n => simp [extractPath] at hpe
    | sym n => simp [extractPath] at hpe
    | numIndex => simp [extractPath] at hpe
    | strIndex => simp [extractPath] at hpe
    | symIndex => simp [extractPath] at hpe
  · have := hdf _ hp
    rw [dotFree_of_append_dot s r _ rfl] at this
    cases this
· rw [if_neg ha] at hp
  simp at hp

theorem top_str_key_in_paths {fs : Fields} {s : String} {o : Bool} {ty : Ty}
    (ha : allStrKeys fs = true) (hm : (KeyP.str s, o, ty) ∈ fs.toList) :
    s ∈ Paths (Ty.obj fs) := by
rw [show Paths (Ty.obj fs) = if allStrKeys fs then InternalStringPath fs else []
  from rfl, if_pos ha]
unfold InternalStringPath
exact List.mem_append_right _ (field_topKey hm)

/-- C1 counterexample: the claim as stated is false.  (i) For the shape
`{ f?: { g: string } }` the empty object is a conforming instance and
`"f.g"` is an enumerated path, yet resolution fails (the optional key is
absent).  (ii) Even with every key present, for the shape
`{ "a.b": string }` the enumerated path `"a.b"` fails to resolve on a
conforming instance, because the dot inside the key name is read as a
separator.  (iii) At the type level, for `{ a: { b: string, 1: number } }`
the path `"a.b"` is enumerated but the `PathValue` computation rejects it
(`never`), because the nested mixed-key record empties `Paths` of the
child. -/
theorem c1_counterexample :
    ("f.g" ∈ enumeratePaths exOpt ∧ conforms (Val.vobj []) exOpt = true ∧
      isErr (resolveValue (Val.vobj []) "f.g") = true) ∧
    ("a.b" ∈ enumeratePaths exDot ∧ conforms exDotInst exDot = true ∧
      conforms exDotInst (requiredView exDot) = true ∧
      isErr (resolveValue exDotInst "a.b") = true) ∧
    ("a.b" ∈ enumeratePaths exNestedMix ∧
      conforms exNestedMixInst exNestedMix = true ∧
      PathValue exNestedMix "a.b" = none) :=
⟨⟨by decide, by decide, by decide⟩,
 ⟨by decide, by decide, by decide, by decide⟩,
 ⟨by decide, by decide, rfl⟩⟩

/-- C1 (amended): for every shape whose declared keys are free of literal
dots, every path enumerated by `enumeratePaths` resolves successfully on
every instance that conforms to the all-keys-present (`requiredView`)
reading of the shape — resolution of an enumerated path never fails when
every optional key on it is actually present. -/
theorem c1_enumerated_paths_resolve (t : Ty) (v : Val) (p : String)
    (hdf : DotFreeKeys t = true)
    (hcv : conforms v (requiredView t) = true)
    (hp : p ∈ enumeratePaths t) :
    isOkE (resolveValue v p) = true := by
obtain ⟨c, hc, rfl⟩ := paths_sound t p hp
cases t with
| obj fs =>
  have hcF : c ∈ chainsF fs := by simpa [chains] using hc
  have hdfF : DotFreeKeysF fs = true := by simpa [DotFreeKeys] using hdf
  have hne := chainsF_ne_nil fs c hcF
  show isOkE (resolveSegs v (segsOf (joinSegs c))) = true
  rw [segsOf_joinSegs c hne (chains_dotFree c fs hdfF hcF)]
  exact resolve_chain c fs v hcv hcF
| strT => simp [chains] at hc
| numT => simp [chains] at hc
| boolT => simp [chains] at hc
| anyT => simp [chains] at hc
| arr e => simp [chains] at hc

/-- C1 witness: the amended theorem at the specification's concrete
scenario. -/
theorem c1_witness : isOkE (resolveValue exUserInst "address.city") = true :=
c1_enumerated_paths_resolve exUser exUserInst "address.city"
  (by decide) (by decide) (by decide)

/-- C2 counterexample: the claim as stated is false.  (i) For the shape
`{ a: string, 1: number }` the single-segment chain `"a"` of a declared
key is omitted — the numeric sibling key empties the whole path set.
(ii) For `{ a: { length: string } }` the declared-key chain
`"a.length"` is omitted: nested keys named like `Array.prototype`
members are excluded by the `Exclude<keyof C, keyof []>` filter. -/
theorem c2_counterexample :
    (["a"] ∈ chains exMix ∧ "a" ∉ enumeratePaths exMix) ∧
    (["a", "length"] ∈ chains exNestedLen ∧
      joinSegs ["a", "length"] = "a.length" ∧
      "a.length" ∉ enumeratePaths exNestedLen) :=
⟨⟨by decide, by decide⟩, ⟨by decide, by decide, by decide⟩⟩

/-- C2 (amended): for every record shape whose top-level keys are all
strings, every dot-joined chain of declared string keys — descending only
through nested records — is contained in `enumeratePaths`, provided no
nested (non-top-level) segment of the chain is named like an
`Array.prototype` member. -/
theorem c2_chain_completeness (fs : Fields) (c : List String)
    (hstr : allStrKeys fs = true) (hc : c ∈ chains (Ty.obj fs))
    (hna : ∀ s ∈ c.drop 1, s ∉ arrayMemberNames) :
    joinSegs c ∈ enumeratePaths (Ty.obj fs) :=
chains_complete fs hstr c (by simpa [chains] using hc) hna

/-- C2 witness: the amended theorem at the specification's concrete
scenario. -/
theorem c2_witness : joinSegs ["address", "city"] ∈ enumeratePaths exUser := by
have h := c2_chain_completeness exUserF ["address", "city"]
  (by decide) (by decide) (by decide)
exact h

/-- C3: for every conforming instance and enumerated path, the resolved
result is exactly the result of successively indexing the instance by
each dot-separated segment of the path in order (and in particular, when
successive indexing yields a value, resolution returns that value). -/
theorem c3_reference_semantics (t : Ty) (v : Val) (p : String)
    (hcv : conforms v t = true) (hp : p ∈ enumeratePaths t) :
    okValue (resolveValue v p) = indexSegs v (segsOf p) :=
resolveSegs_okValue (segsOf p) v

/-- C3 witness: the theorem at the specification's concrete scenario. -/
theorem c3_witness :
    okValue (resolveValue exUserInst "address.zip") =
      indexSegs exUserInst (segsOf "address.zip") :=
c3_reference_semantics exUser exUserInst "address.zip" (by decide) (by decide)

/-- C4 counterexample: the raises-iff as stated is false.  (i) For
`{ f?: { g: string } }` the empty object conforms and resolving `"f"`
fails, although `"f"` is a declared key and none of the stated failure
conditions holds.  (ii) For `{ a: any }` with runtime value
`{ a: { b: 1 } }`, resolving `"a.b"` succeeds although the non-final
segment `"a"` names a key whose declared value is not a nested record.
(iii) For `{ "": string }` with its key present, resolving the empty
path succeeds although the claim requires every empty path to fail. -/
theorem c4_counterexample :
    (conforms (Val.vobj []) exOpt = true ∧
      ¬(isErr (resolveValue (Val.vobj []) "f") = true ↔
        ("f" = "" ∨ "" ∈ segsOf "f" ∨ validSegs exOpt (segsOf "f") = false))) ∧
    (conforms exAnyInst exAny = true ∧
      ¬(isErr (resolveValue exAnyInst "a.b") = true ↔
        ("a.b" = "" ∨ "" ∈ segsOf "a.b" ∨ validSegs exAny (segsOf "a.b") = false))) ∧
    (conforms exEmptyKeyInst exEmptyKey = true ∧
      ¬(isErr (resolveValue exEmptyKeyInst "") = true ↔
        ("" = "" ∨ "" ∈ segsOf "" ∨ validSegs exEmptyKey (segsOf "") = false))) :=
⟨⟨by decide, by decide⟩, ⟨by decide, by decide⟩, ⟨by decide, by decide⟩⟩

/-- C4 (amended): for every rigid shape (no optional keys, no
`any`-kinded values, no empty key names, string keys declared once) and
every exactly-conforming instance, `resolveValue` fails with
`InvalidPathError` if and only if the path is empty, or contains a
zero-length segment, or some segment does not name a declared key at its
nesting level or a non-final segment names a key whose declared value is
not itself a nested record (the `validSegs` check); otherwise it returns
a value. -/
theorem c4_invalid_path_iff (t : Ty) (v : Val) (p : String)
    (hr : Rigid t = true) (hcv : conforms v t = true) :
    isErr (resolveValue v p) = true ↔
      (p = "" ∨ "" ∈ segsOf p ∨ validSegs t (segsOf p) = false) := by
have hco := c4core (segsOf p) t v (segsOf_ne_nil p) hr hcv
constructor
· intro h
  exact Or.inr (Or.inr (hco.mp h))
· rintro (rfl | h | h)
  · exact hco.mpr (validSegs_empty_seg (segsOf "") t hr (by decide))
  · exact hco.mpr (validSegs_empty_seg (segsOf p) t hr h)
  · exact hco.mpr h

/-- C4 witness: the amended iff at the specification's concrete scenario
(an undeclared segment). -/
theorem c4_witness :
    isErr (resolveValue exUserInst "address.country") = true ↔
      ("address.country" = "" ∨ "" ∈ segsOf "address.country" ∨
        validSegs exUser (segsOf "address.country") = false) :=
c4_invalid_path_iff exUser exUserInst "address.country" (by decide) (by decide)

/-- C5: the resolution algorithm's structure.  A path without a dot is a
single segment: `resolveValue` looks it up directly on the instance (no
recursion) and returns the value or fails at that segment.  A path with
at least one dot splits at the first dot into `(head, rest)`: when
`head` resolves on the instance, `resolveValue` continues exactly as
`resolveValue(instance[head], rest)`; when it does not, resolution fails
at `head`. -/
theorem c5_split_recursion :
    (∀ (v : Val) (p : String), dotFree p = true →
      resolveValue v p =
        match lookupVal v p with
        | some w => Except.ok w
        | none => Except.error ⟨p, p⟩) ∧
    (∀ (v w : Val) (h r : String), dotFree h = true → lookupVal v h = some w →
      resolveValue v (h ++ "." ++ r) = resolveValue w r) ∧
    (∀ (v : Val) (h r : String), dotFree h = true → lookupVal v h = none →
      resolveValue v (h ++ "." ++ r) = Except.error ⟨h ++ "." ++ r, h⟩) := by
refine ⟨?_, ?_, ?_⟩
· intro v p hdf
  show resolveSegs v (segsOf p) = _
  rw [segsOf_no_dot p hdf]
  show (match lookupVal v p with
    | some w => resolveSegs w []
    | none => Except.error ⟨joinSegs [p], p⟩) = _
  cases hl : lookupVal v p with
  | some w => rfl
  | none => rw [joinSegs_single]
· intro v w h r hdf hl
  show resolveSegs v (segsOf (h ++ "." ++ r)) = _
  rw [segsOf_append_dot h r hdf]
  show (match lookupVal v h with
    | some x => resolveSegs x (segsOf r)
    | none => Except.error ⟨joinSegs (h :: segsOf r), h⟩) = _
  rw [hl]
  rfl
· intro v h r hdf hl
  show resolveSegs v (segsOf (h ++ "." ++ r)) = _
  rw [segsOf_append_dot h r hdf]
  show (match lookupVal v h with
    | some x => resolveSegs x (segsOf r)
    | none => Except.error ⟨joinSegs (h :: segsOf r), h⟩) = _
  rw [hl, joinSegs_cons h (segsOf r) (segsOf_ne_nil r), joinSegs_segsOf]

/-- C5 witness: the recursion equation and the direct-lookup boundary at
the specification's concrete scenario. -/
theorem c5_witness :
    resolveValue exUserInst ("address" ++ "." ++ "city") =
      resolveValue exUserAddress "city" ∧
    resolveValue exUserInst "name" = Except.ok (Val.vstr "Pontiac Ifesinachi") := by
constructor
· exact c5_split_recursion.2.1 exUserInst exUserAddress "address" "city"
    (by decide) rfl
· rw [c5_split_recursion.1 exUserInst "name" (by decide)]
  rfl

/-- C6: the specification's concrete scenario.  `enumeratePaths` of the
shape yields exactly the set `{"name", "address", "address.city",
"address.zip"}`; resolving `"address.city"` returns `"Pontiac"`,
resolving `"address.zip"` returns `48342`, and resolving
`"address.country"` fails with an `InvalidPathError` referencing segment
`"country"`. -/
theorem c6_concrete_scenario :
    (∀ s : String, s ∈ enumeratePaths exUser ↔
      s ∈ ["name", "address", "address.city", "address.zip"]) ∧
    resolveValue exUserInst "address.city" = Except.ok (Val.vstr "Pontiac") ∧
    resolveValue exUserInst "address.zip" = Except.ok (Val.vnum 48342) ∧
    isErr (resolveValue exUserInst "address.country") = true ∧
    errSegment (resolveValue exUserInst "address.country") = some "country" := by
refine ⟨?_, rfl, rfl, rfl, rfl⟩
intro s
rw [show enumeratePaths exUser = ["name", "address.city", "address.zip",
  "address.city", "address.zip", "name", "address"] from rfl]
simp only [List.mem_cons, List.not_mem_nil, or_false]
tauto

/-- C7: optional-key strictness.  Path validity is computed against the
all-keys-present view of the shape — `Paths` is invariant under
`requiredView` — so a path through an optional intermediate key is
enumerated; and at runtime, resolving through an optional key that is
absent from a conforming instance fails with an `InvalidPathError`
(never a null-like value). -/
theorem c7_optional_strictness :
    (∀ t : Ty, Paths (requiredView t) = Paths t) ∧
    "f.g" ∈ enumeratePaths exOpt ∧
    conforms (Val.vobj []) exOpt = true ∧
    resolveValue (Val.vobj []) "f.g" = Except.error ⟨"f.g", "f"⟩ :=
⟨paths_requiredView, by decide, by decide, rfl⟩

/-- C8 counterexample: the claim as stated is false on shapes with a
non-string sibling key: for `{ 1: number, a: number[] }` the array-valued
key `"a"` is declared, yet the enumerated path set is empty and does not
contain `"a"`. -/
theorem c8_counterexample :
    Fields.get? exMixArrF "a" = some (false, Ty.arr Ty.numT) ∧
    "a" ∉ enumeratePaths exMixArr :=
⟨rfl, by decide⟩

/-- C8 (amended): array-index skipping.  On shapes whose top-level keys
are all strings, an array-valued declared key is enumerated as a path
itself; `ExtractPath` of an array-valued key contributes no deeper path
(every key of `Array<T>` is excluded by `keyof []`); and in general every
enumerated path of any shape is the dot-join of a chain of declared keys
descending only through nested records — no enumerated path descends into
an array's indices or elements. -/
theorem c8_array_skipping :
    (∀ (fs : Fields) (s : String) (o : Bool) (e : Ty), allStrKeys fs = true →
      (KeyP.str s, o, Ty.arr e) ∈ fs.toList → s ∈ enumeratePaths (Ty.obj fs)) ∧
    (∀ (s : String) (e : Ty), extractPath (KeyP.str s) (Ty.arr e) = []) ∧
    (∀ (t : Ty) (p : String), p ∈ enumeratePaths t → ∃ c ∈ chains t, p = joinSegs c) :=
⟨fun fs s o e ha hm => top_str_key_in_paths ha hm,
 fun s e => rfl,
 paths_sound⟩

/-- C8 witness: the amended theorem on `{ xs: number[], b: { c: string } }`:
the array key is enumerated. -/
theorem c8_witness : "xs" ∈ enumeratePaths exArr :=
c8_array_skipping.1 exArrF "xs" false Ty.numT (by decide) (by decide)

/-- C9: a record shape whose top-level key set contains a non-string
(numeric or symbol) key has an empty enumerated path set — the
`keyof T extends string` guard of `Paths` fails, yielding `never`. -/
theorem c9_nonstring_key_empties (fs : Fields)
    (h : ∃ k ∈ fs.keysOf, (∃ n, k = KeyP.num n) ∨ (∃ n, k = KeyP.sym n)) :
    enumeratePaths (Ty.obj fs) = [] := by
have ha : allStrKeys fs = false := by
  obtain ⟨k, hk, hf0⟩ := h
  have hf : KeyP.isStr k = false := by
    rcases hf0 with ⟨n, rfl⟩ | ⟨n, rfl⟩ <;> rfl
  cases hall : allStrKeys fs with
  | false => rfl
  | true =>
    unfold allStrKeys at hall
    rw [List.all_eq_true] at hall
    have h2 := hall k hk
    rw [hf] at h2
    cases h2
show (if allStrKeys fs then InternalStringPath fs else []) = []
rw [ha]
rfl

/-- C9 witness: the shape `{ a: string, 1: number }` enumerates no path
at all, not even `"a"`. -/
theorem c9_witness : enumeratePaths exMix = [] :=
c9_nonstring_key_empties exMixF ⟨KeyP.num 1, by decide, Or.inl ⟨1, rfl⟩⟩

/-- C10 counterexample: the claim as stated is false.  (i) For
`{ 1: number, a: any }` the `any`-kinded key `"a"` is declared, yet the
enumerated path set is empty and does not even contain the
single-segment path `"a"`.  (ii) For `{ a: any, "a.b": string }` the
path `"a" ++ "." ++ "b"` is enumerated, a path textually beneath the
`any` key.  (iii) The same happens when `a` is declared twice (`any`
first, then a record). -/
theorem c10_counterexample :
    (Fields.get? exMixAnyF "a" = some (false, Ty.anyT) ∧
      "a" ∉ enumeratePaths exMixAny) ∧
    (Fields.get? exAnyDotF "a" = some (false, Ty.anyT) ∧
      "a" ++ "." ++ "b" ∈ enumeratePaths exAnyDot) ∧
    (Fields.get? exAnyDupF "a" = some (false, Ty.anyT) ∧
      "a" ++ "." ++ "b" ∈ enumeratePaths exAnyDup) :=
⟨⟨rfl, by decide⟩, ⟨rfl, by decide⟩, ⟨rfl, by decide⟩⟩

/-- C10 (amended): no descent through `any`.  On a well-formed shape
(top-level keys all strings, pairwise distinct, free of literal dots)
with a declared key of the wholly-unconstrained `any` kind (detected by
`IsAny`), the single-segment path for that key is enumerated, but no
enumerated path descends below it. -/
theorem c10_any_no_descent (fs : Fields) (s : String) (o : Bool)
    (hstr : allStrKeys fs = true)
    (hnd : (topKeyStrings fs).Nodup)
    (hdf : ∀ x ∈ topKeyStrings fs, dotFree x = true)
    (hg : fs.get? s = some (o, Ty.anyT)) :
    s ∈ enumeratePaths (Ty.obj fs) ∧
      ∀ r, (s ++ "." ++ r) ∉ enumeratePaths (Ty.obj fs) := by
refine ⟨top_str_key_in_paths hstr (get?_mem fs s o Ty.anyT hg), ?_⟩
intro r hmem
exact paths_no_descent_below_any fs s o hnd hdf hg r _ hmem rfl

/-- C10 witness: the amended theorem on `{ a: any }` at a concrete deeper
path. -/
theorem c10_witness :
    "a" ∈ enumeratePaths exAny ∧ ("a" ++ "." ++ "b") ∉ enumeratePaths exAny :=
⟨(c10_any_no_descent exAnyF "a" false (by decide) (by decide) (by decide) rfl).1,
 (c10_any_no_descent exAnyF "a" false (by decide) (by decide) (by decide) rfl).2 "b"⟩
